/-
  Verification of the nocturne audio subsystem:
  audio cache (audio_cache.py), programmatic synthesizer (ai_music_generator.py)
  and the long-BGM segment stitcher (long_bgm_generator.py).

  Conventions of the embedding:
  * Python floats are modelled as elements of a linear ordered field
    (instantiated at ℚ for executable checks and at ℝ where `math.sin` appears).
  * Python `int(x)` (truncation toward zero) is `pyTrunc`.
  * Python dicts are association lists with unique keys; insertion keeps the
    position of an existing binding and appends new bindings at the end,
    matching dict update semantics.
  * `datetime.utcnow()` is an explicit natural-number timestamp argument.
-/
import Mathlib

namespace Nocturne

/-- Python `int(x)`: truncation toward zero. -/
def pyTrunc {α : Type} [LinearOrderedField α] [FloorRing α] (x : α) : ℤ :=
  if x < 0 then ⌈x⌉ else ⌊x⌋

/-! ### JSON values and `json.dumps(..., sort_keys=True, ensure_ascii=False)`

The generation-parameter dicts built in `ai_music_generator.py` map string
keys to strings, ints or `None`; `JValue` covers exactly these. -/

inductive JValue where
  | jstr (s : String)
  | jint (n : ℤ)
  | jnull
deriving DecidableEq

/-- The lowercase hex digit for `n < 16`, used by `hashlib`'s `hexdigest`
and by JSON `\u00XX` escapes: codepoint 48+n for digits, 87+n for a-f. -/
def hexDigitChar (n : ℕ) : Char :=
  if n < 10 then Char.ofNat (48 + n) else Char.ofNat (87 + n)

/-- JSON escaping of a single character as done by `json.dumps` with
`ensure_ascii=False`: only the quote, backslash and control characters are
escaped. -/
def escapeChar (c : Char) : List Char :=
  let n := c.toNat
  if c = '\\' then ['\\', '\\']
  else if c = '"' then ['\\', '"']
  else if 32 ≤ n then [c]
  else if n = 8 then ['\\', 'b']
  else if n = 9 then ['\\', 't']
  else if n = 10 then ['\\', 'n']
  else if n = 12 then ['\\', 'f']
  else if n = 13 then ['\\', 'r']
  else ['\\', 'u', hexDigitChar 0, hexDigitChar 0, hexDigitChar (n / 16), hexDigitChar (n % 16)]

/-- A JSON string literal: quoted, characters escaped. -/
def jsonString (s : String) : List Char :=
  '"' :: (s.data.map escapeChar).flatten ++ ['"']

/-- Serialization of a single JSON value. -/
def serJValue : JValue → List Char
  | .jstr s => jsonString s
  | .jint n => (toString n).data
  | .jnull => "null".data

/-- One `"key": value` item of a JSON object (default `': '` separator). -/
def serEntry (p : String × JValue) : List Char :=
  jsonString p.1 ++ [':', ' '] ++ serJValue p.2

/-- The items of a JSON object joined by the default `', '` separator. -/
def serEntries : List (String × JValue) → List Char
  | [] => []
  | [p] => serEntry p
  | p :: q :: rest => serEntry p ++ [',', ' '] ++ serEntries (q :: rest)

/-- `sort_keys=True`: object items ordered by key (stable sort, as Python's). -/
def sortEntries (l : List (String × JValue)) : List (String × JValue) :=
  List.insertionSort (fun a b => a.1 ≤ b.1) l

/-- `json.dumps(params, sort_keys=True, ensure_ascii=False)` on a flat dict. -/
def jsonDumpsSorted (l : List (String × JValue)) : List Char :=
  '\x7b' :: serEntries (sortEntries l) ++ ['\x7d']

/-- UTF-8 encoding of one character (Python `str.encode()`). -/
def utf8Char (c : Char) : List ℕ :=
  let n := c.toNat
  if n < 128 then [n]
  else if n < 2048 then [192 + n / 64, 128 + n % 64]
  else if n < 65536 then [224 + n / 4096, 128 + (n / 64) % 64, 128 + n % 64]
  else [240 + n / 262144, 128 + (n / 4096) % 64, 128 + (n / 64) % 64, 128 + n % 64]

/-- UTF-8 encoding of a character sequence. -/
def utf8Encode (cs : List Char) : List ℕ :=
  (cs.map utf8Char).flatten

/-! ### SHA-256 (FIPS 180-4), as used through `hashlib.sha256` -/

/-- Reduce to a 32-bit word. -/
def w32 (x : ℕ) : ℕ := x % 4294967296

/-- Right rotation of a 32-bit word. -/
def rotr32 (x n : ℕ) : ℕ := w32 ((x >>> n) ||| (x <<< (32 - n)))

/-- Bitwise complement of a 32-bit word. -/
def not32 (x : ℕ) : ℕ := x ^^^ 4294967295

/-- SHA-256 Σ₀. -/
def bsig0 (x : ℕ) : ℕ := rotr32 x 2 ^^^ rotr32 x 13 ^^^ rotr32 x 22

/-- SHA-256 Σ₁. -/
def bsig1 (x : ℕ) : ℕ := rotr32 x 6 ^^^ rotr32 x 11 ^^^ rotr32 x 25

/-- SHA-256 σ₀. -/
def ssig0 (x : ℕ) : ℕ := rotr32 x 7 ^^^ rotr32 x 18 ^^^ (x >>> 3)

/-- SHA-256 σ₁. -/
def ssig1 (x : ℕ) : ℕ := rotr32 x 17 ^^^ rotr32 x 19 ^^^ (x >>> 10)

/-- SHA-256 Ch. -/
def chF (e f g : ℕ) : ℕ := (e &&& f) ^^^ (not32 e &&& g)

/-- SHA-256 Maj. -/
def majF (a b c : ℕ) : ℕ := (a &&& b) ^^^ (a &&& c) ^^^ (b &&& c)

/-- The 64 SHA-256 round constants (decimal). -/
def sha256K : List ℕ :=
  [1116352408, 1899447441, 3049323471, 3921009573, 961987163,
   1508970993, 2453635748, 2870763221, 3624381080, 310598401,
   607225278, 1426881987, 1925078388, 2162078206, 2614888103,
   3248222580, 3835390401, 4022224774, 264347078, 604807628,
   770255983, 1249150122, 1555081692, 1996064986, 2554220882,
   2821834349, 2952996808, 3210313671, 3336571891, 3584528711,
   113926993, 338241895, 666307205, 773529912, 1294757372,
   1396182291, 1695183700, 1986661051, 2177026350, 2456956037,
   2730485921, 2820302411, 3259730800, 3345764771, 3516065817,
   3600352804, 4094571909, 275423344, 430227734, 506948616,
   659060556, 883997877, 958139571, 1322822218, 1537002063,
   1747873779, 1955562222, 2024104815, 2227730452, 2361852424,
   2428436474, 2756734187, 3204031479, 3329325298]

/-- The eight 32-bit working variables / hash state. -/
structure Hash8 where
  a : ℕ
  b : ℕ
  c : ℕ
  d : ℕ
  e : ℕ
  f : ℕ
  g : ℕ
  h : ℕ
deriving DecidableEq

/-- SHA-256 initial hash value (decimal). -/
def sha256H0 : Hash8 :=
  ⟨1779033703, 3144134277, 1013904242, 2773480762,
   1359893119, 2600822924, 528734635, 1541459225⟩

/-- SHA-256 message padding: `0x80`, zeros to 56 mod 64, 8-byte big-endian bit length. -/
def padMessage (msg : List ℕ) : List ℕ :=
  let bitLen := 8 * msg.length
  let zeros := (120 - (msg.length + 1) % 64) % 64
  msg ++ [128] ++ List.replicate zeros 0 ++
    [(bitLen >>> 56) % 256, (bitLen >>> 48) % 256, (bitLen >>> 40) % 256,
     (bitLen >>> 32) % 256, (bitLen >>> 24) % 256, (bitLen >>> 16) % 256,
     (bitLen >>> 8) % 256, bitLen % 256]

/-- The sixteen big-endian message words of one 64-byte block. -/
def blockWords (block : List ℕ) : List ℕ :=
  (List.range 16).map fun j =>
    (block.getD (4 * j) 0 <<< 24) + (block.getD (4 * j + 1) 0 <<< 16) +
      (block.getD (4 * j + 2) 0 <<< 8) + block.getD (4 * j + 3) 0

/-- Extend sixteen message words to the 64-entry message schedule. -/
def schedule (ws : List ℕ) : List ℕ :=
  (List.range 48).foldl
    (fun w t =>
      w ++ [w32 (ssig1 (w.getD (t + 14) 0) + w.getD (t + 9) 0 +
        ssig0 (w.getD (t + 1) 0) + w.getD t 0)])
    ws

/-- One SHA-256 round. -/
def roundStep (w : List ℕ) (st : Hash8) (i : ℕ) : Hash8 :=
  let t1 := w32 (st.h + bsig1 st.e + chF st.e st.f st.g + sha256K.getD i 0 + w.getD i 0)
  let t2 := w32 (bsig0 st.a + majF st.a st.b st.c)
  ⟨w32 (t1 + t2), st.a, st.b, st.c, w32 (st.d + t1), st.e, st.f, st.g⟩

/-- Compression of one 64-byte block into the running hash state. -/
def compressBlock (st : Hash8) (block : List ℕ) : Hash8 :=
  let w := schedule (blockWords block)
  let r := (List.range 64).foldl (roundStep w) st
  ⟨w32 (st.a + r.a), w32 (st.b + r.b), w32 (st.c + r.c), w32 (st.d + r.d),
   w32 (st.e + r.e), w32 (st.f + r.f), w32 (st.g + r.g), w32 (st.h + r.h)⟩

/-- The four big-endian bytes of a 32-bit word. -/
def wordBytes (x : ℕ) : List ℕ :=
  [(x >>> 24) % 256, (x >>> 16) % 256, (x >>> 8) % 256, x % 256]

/-- SHA-256 digest (32 bytes) of a byte sequence. -/
def sha256Bytes (msg : List ℕ) : List ℕ :=
  let padded := padMessage msg
  let blocks := (List.range (padded.length / 64)).map fun i => (padded.drop (64 * i)).take 64
  let hf := blocks.foldl compressBlock sha256H0
  wordBytes hf.a ++ wordBytes hf.b ++ wordBytes hf.c ++ wordBytes hf.d ++
    wordBytes hf.e ++ wordBytes hf.f ++ wordBytes hf.g ++ wordBytes hf.h

/-- Lowercase hex rendering of two hex digits per byte (`hexdigest`). -/
def byteHexChars (b : ℕ) : List Char :=
  [hexDigitChar (b / 16), hexDigitChar (b % 16)]

/-- `hashlib.sha256(msg).hexdigest()` as a character list. -/
def sha256HexChars (msg : List ℕ) : List Char :=
  ((sha256Bytes msg).map byteHexChars).flatten

/-- `AudioCacheManager._generate_cache_key`: normalize the parameter dict with
`json.dumps(..., sort_keys=True, ensure_ascii=False)`, SHA-256 it, keep the
first 16 hex digits. -/
def generateCacheKey (params : List (String × JValue)) : String :=
  String.mk ((sha256HexChars (utf8Encode (jsonDumpsSorted params))).take 16)

/-! ### Audio cache (`audio_cache.py`)

The `AudioCacheManager` state is its in-memory index (`_cache_index`, a dict
from cache key to `CacheEntry`), the filesystem contents of the cache
directory (a map from file path to bytes), and the configured byte budget.
`_save_metadata` only mirrors the index to disk and is a no-op here. -/

/-- Stored track metadata: `cache_track` always stores exactly these keys. -/
structure TrackMeta where
  title : String
  genre : String
  duration : ℕ
  format : String
  bitrate : ℕ
  generation_method : String
  generation_params : List (String × JValue)
deriving DecidableEq

/-- `CacheEntry` of `audio_cache.py`. Timestamps are abstract clock readings. -/
structure CacheEntry where
  file_path : String
  metadata : TrackMeta
  created_at : ℕ
  last_accessed : ℕ
  access_count : ℕ
  file_size : ℕ
deriving DecidableEq

/-- The `GeneratedTrack` fields that `cache_track` reads and
`get_cached_track` rebuilds. -/
structure GeneratedTrack where
  id : String
  title : String
  genre : String
  duration : ℕ
  file_url : String
  format : String
  bitrate : ℕ
  file_size : ℕ
  created_at : ℕ
  generation_method : String
deriving DecidableEq

/-- Association-list lookup, i.e. Python `d[k]` / `k in d`. -/
def lookupA {β : Type} (l : List (String × β)) (k : String) : Option β :=
  (l.find? fun p => p.1 == k).map Prod.snd

/-- Association-list update with dict semantics: replace in place, else append. -/
def insertA {β : Type} : List (String × β) → String → β → List (String × β)
  | [], k, v => [(k, v)]
  | p :: t, k, v => if p.1 = k then (k, v) :: t else p :: insertA t k v

/-- Association-list deletion (`del d[k]`). -/
def eraseA {β : Type} (l : List (String × β)) (k : String) : List (String × β) :=
  l.filter fun p => p.1 ≠ k

/-- The mutable state of an `AudioCacheManager`. -/
structure CacheState where
  cacheIndex : List (String × CacheEntry)
  files : List (String × List ℕ)
  maxSizeBytes : ℕ
deriving DecidableEq

/-- `AudioCacheManager.__init__` with an empty cache directory:
`max_size_bytes = max_size_mb * 1024 * 1024`. -/
def initCache (maxSizeMb : ℕ) : CacheState :=
  { cacheIndex := [], files := [], maxSizeBytes := maxSizeMb * 1024 * 1024 }

/-- Well-formedness mirrored from Python dicts: index keys are distinct. -/
def CacheWF (s : CacheState) : Prop :=
  (s.cacheIndex.map Prod.fst).Nodup

instance (s : CacheState) : Decidable (CacheWF s) := by
  unfold CacheWF; infer_instance

/-- Sum of `entry.file_size` over the index
(`sum(entry.file_size for entry in self._cache_index.values())`). -/
def totalSize (s : CacheState) : ℕ :=
  (s.cacheIndex.map fun p => p.2.file_size).sum

/-- `AudioCacheManager._remove_cache_entry`: delete the backing file
(best-effort) and the index entry; report whether the key existed. -/
def removeCacheEntry (cacheKey : String) (s : CacheState) : Bool × CacheState :=
  match lookupA s.cacheIndex cacheKey with
  | none => (false, s)
  | some entry =>
      (true, { s with
        files := eraseA s.files entry.file_path,
        cacheIndex := eraseA s.cacheIndex cacheKey })

/-- Folding `_remove_cache_entry` over a list of snapshot pairs. The eviction
loop always removes some prefix of its sorted snapshot; this definition names
that shape for the proofs about eviction order. -/
def removePairs (ps : List (String × CacheEntry)) (s : CacheState) : CacheState :=
  ps.foldl (fun st p => (removeCacheEntry p.1 st).2) s

/-- The eviction loop of `_ensure_cache_space`: walk entries sorted by
`last_accessed`, removing each, until the incoming bytes fit the budget.
`current` tracks `current_size` (a Python int, hence ℤ). -/
def evictLoop (required maxB : ℕ) :
    List (String × CacheEntry) → CacheState → ℤ → CacheState
  | [], s, _ => s
  | (k, e) :: rest, s, current =>
      let s' := (removeCacheEntry k s).2
      let current' := current - e.file_size
      if current' + required ≤ (maxB : ℤ) then s' else evictLoop required maxB rest s' current'

/-- `sorted(self._cache_index.items(), key=lambda x: x[1].last_accessed)`
(Python's sort is stable; so is insertion sort). -/
def sortByLastAccessed (l : List (String × CacheEntry)) : List (String × CacheEntry) :=
  List.insertionSort (fun a b => a.2.last_accessed ≤ b.2.last_accessed) l

/-- `AudioCacheManager._ensure_cache_space`. -/
def ensureCacheSpace (required : ℕ) (s : CacheState) : CacheState :=
  let current : ℤ := totalSize s
  if current + required ≤ (s.maxSizeBytes : ℤ) then s
  else evictLoop required s.maxSizeBytes (sortByLastAccessed s.cacheIndex) s current

/-- `AudioCacheManager.cache_track`: ensure space, write the file, insert the
index entry with `access_count = 1`; returns the cache key and new state. -/
def cacheTrack (track : GeneratedTrack) (audioData : List ℕ)
    (params : List (String × JValue)) (now : ℕ) (s : CacheState) :
    String × CacheState :=
  let cacheKey := generateCacheKey params
  let cacheFilePath := cacheKey ++ "." ++ track.format
  let s1 := ensureCacheSpace audioData.length s
  let s2 := { s1 with files := insertA s1.files cacheFilePath audioData }
  let entry : CacheEntry :=
    { file_path := cacheFilePath
      metadata :=
        { title := track.title, genre := track.genre, duration := track.duration,
          format := track.format, bitrate := track.bitrate,
          generation_method := track.generation_method, generation_params := params }
      created_at := now
      last_accessed := now
      access_count := 1
      file_size := audioData.length }
  (cacheKey, { s2 with cacheIndex := insertA s2.cacheIndex cacheKey entry })

/-- `AudioCacheManager.get_cached_track`: on hit, bump `last_accessed` and
`access_count` and rebuild a `GeneratedTrack`; purge a stale entry whose
backing file is gone. -/
def getCachedTrack (params : List (String × JValue)) (now : ℕ) (s : CacheState) :
    Option GeneratedTrack × CacheState :=
  let cacheKey := generateCacheKey params
  match lookupA s.cacheIndex cacheKey with
  | none => (none, s)
  | some entry =>
      if (lookupA s.files entry.file_path).isNone then
        (none, (removeCacheEntry cacheKey s).2)
      else
        let entry' := { entry with last_accessed := now, access_count := entry.access_count + 1 }
        (some
          { id := cacheKey
            title := entry'.metadata.title
            genre := entry'.metadata.genre
            duration := entry'.metadata.duration
            file_url := "/audio/cache/" ++ cacheKey
            format := entry'.metadata.format
            bitrate := entry'.metadata.bitrate
            file_size := entry'.file_size
            created_at := entry'.created_at
            generation_method := entry'.metadata.generation_method },
          { s with cacheIndex := insertA s.cacheIndex cacheKey entry' })

/-- `AIMusicGenerator.get_track_audio`: read the bytes backing a cache key. -/
def getTrackAudio (trackId : String) (s : CacheState) : Option (List ℕ) :=
  (lookupA s.cacheIndex trackId).bind fun entry => lookupA s.files entry.file_path

/-! ### Programmatic synthesizer (`ai_music_generator.py`, sample rate 44100)

Sample values are elements of a linear ordered field (ℚ for executable
checks, ℝ where `math.sin` is involved). Durations are ℚ. The imperative
loops below are embedded as folds with explicit single-index updates. -/

variable {α : Type} [LinearOrderedField α]

/-- In-place `l[i] = l[i] * c`; out-of-range indices untouched. -/
def scaleAt : List α → ℕ → α → List α
  | [], _, _ => []
  | x :: t, 0, c => (x * c) :: t
  | x :: t, n + 1, c => x :: scaleAt t n c

/-- In-place `l[i] = l[i] + v`; out-of-range indices untouched. -/
def addAt : List α → ℕ → α → List α
  | [], _, _ => []
  | x :: t, 0, v => (x + v) :: t
  | x :: t, n + 1, v => x :: addAt t n v

/-- `num_samples = int(self.sample_rate * duration)` of `generate_sine_wave`. -/
def numSineSamples (duration : ℚ) : ℕ :=
  (pyTrunc ((44100 : ℚ) * duration)).toNat

/-- `ProgrammaticMusicGenerator.generate_sine_wave`: append
`amplitude * sin(2π·frequency·(i / 44100))` for `i` in `range(num_samples)`. -/
noncomputable def generateSineWave (frequency : ℝ) (duration : ℚ) (amplitude : ℝ) : List ℝ :=
  (List.range (numSineSamples duration)).foldl
    (fun samples (i : ℕ) =>
      samples ++ [amplitude * Real.sin (2 * Real.pi * frequency * ((i : ℝ) / 44100))])
    []

/-- `fade_samples = int(self.sample_rate * fade_duration)`. A negative Python
value makes both fade loops empty, exactly as the clamp to 0 does here. -/
def fadeSamplesOf (fadeDuration : ℚ) : ℕ :=
  (pyTrunc ((44100 : ℚ) * fadeDuration)).toNat

/-- The fade-in loop of `apply_fade`:
`for i in range(min(fade_samples, len(result))): result[i] *= i / fade_samples`. -/
def fadeInLoop (fs : ℕ) (samples : List α) : List α :=
  (List.range (min fs samples.length)).foldl
    (fun r i => scaleAt r i ((i : α) / (fs : α))) samples

/-- The fade-out loop of `apply_fade`:
`for i in range(max(0, len(result) - fade_samples), len(result)):
   result[i] *= (len(result) - i) / fade_samples`. -/
def fadeOutLoop (fs : ℕ) (samples : List α) : List α :=
  (List.range' (samples.length - fs) (samples.length - (samples.length - fs))).foldl
    (fun r i => scaleAt r i (((samples.length - i : ℕ) : α) / (fs : α))) samples

/-- `ProgrammaticMusicGenerator.apply_fade`. -/
def applyFade (samples : List α) (fadeDuration : ℚ) : List α :=
  fadeOutLoop (fadeSamplesOf fadeDuration) (fadeInLoop (fadeSamplesOf fadeDuration) samples)

/-- `volumes[i] if i < len(volumes) else 1.0` of `mix_tracks`. -/
def volAt (volumes : List α) (i : ℕ) : α :=
  if i < volumes.length then volumes.getD i 0 else 1

/-- The inner loop of `mix_tracks`:
`for j, sample in enumerate(track): if j < max_length: mixed[j] += sample * volume`
(every `j` here satisfies `j < max_length`, and `addAt` ignores out-of-range
indices just as the guard does). -/
def addTrack (volume : α) : List α → ℕ → List α → List α
  | [], _, mixed => mixed
  | x :: t, j, mixed => addTrack volume t (j + 1) (addAt mixed j (x * volume))

/-- The outer loop of `mix_tracks` over `enumerate(track_list)`. -/
def mixLoop (volumes : List α) : List (List α) → ℕ → List α → List α
  | [], _, mixed => mixed
  | tr :: rest, i, mixed => mixLoop volumes rest (i + 1) (addTrack (volAt volumes i) tr 0 mixed)

/-- Python `max(iterable) if iterable else default`. -/
def pyMaxList (l : List α) (dflt : α) : α :=
  match l with
  | [] => dflt
  | x :: t => t.foldl max x

/-- `max_length = max(len(track) for track in track_list)`. -/
def maxLenTracks (trackList : List (List α)) : ℕ :=
  match trackList.map List.length with
  | [] => 0
  | n :: t => t.foldl max n

/-- The accumulation phase of `mix_tracks` (before clipping prevention):
`mixed = [0.0] * max_length` then the enumerate loops. -/
def rawMix (trackList : List (List α)) (volumes : List α) : List α :=
  mixLoop volumes trackList 0 (List.replicate (maxLenTracks trackList) 0)

/-- `ProgrammaticMusicGenerator.mix_tracks`: weighted sum, then divide by the
peak only when `max(abs(s)) > 1.0`. -/
def mixTracks (trackList : List (List α)) (volumesOpt : Option (List α)) : List α :=
  if trackList.isEmpty then []
  else
    let volumes := volumesOpt.getD (List.replicate trackList.length 1)
    let mixed := rawMix trackList volumes
    let maxVal := pyMaxList (mixed.map fun s => |s|) 1
    if 1 < maxVal then mixed.map (fun s => s / maxVal) else mixed

/-- The 16-bit PCM conversion of `samples_to_wav`:
`int(sample * 32767)` clamped to `[-32768, 32767]`. -/
def pcm16 [FloorRing α] (sample : α) : ℤ :=
  max (-32768) (min 32767 (pyTrunc (sample * 32767)))

/-- The stereo frame stream of `samples_to_wav`: each converted sample is
appended twice (left, right). -/
def stereoPCM [FloorRing α] (samples : List α) : List ℤ :=
  samples.foldl (fun acc s => acc ++ [pcm16 s, pcm16 s]) []

/-- One sample of `struct.pack("<h", ...)`: two bytes, little-endian,
two's complement. -/
def int16LE (v : ℤ) : List ℕ :=
  [(v.emod 65536).toNat % 256, (v.emod 65536).toNat / 256]

/-- The PCM payload written by `wav_file.writeframes`. -/
def wavFrameBytes [FloorRing α] (samples : List α) : List ℕ :=
  ((stereoPCM samples).map int16LE).flatten

/-! ### Long-BGM stitcher (`long_bgm_generator.py`, sample rate 32000)

numpy 1-D arrays become lists; numpy's elementwise `*`/`+` with length-1
broadcasting becomes `npMul`/`npAdd`, returning `none` exactly where numpy
raises on incompatible shapes. Python's negative-count slices `a[-0:] = a`
and `a[:-0] = []` are reproduced literally. -/

/-- `overlap_samples = int(overlap_duration * self.sample_rate)`. -/
def overlapSamples (overlapDuration : ℕ) : ℕ :=
  overlapDuration * 32000

/-- `np.linspace(a, b, n)`. -/
def linspace (a b : α) (n : ℕ) : List α :=
  if n = 0 then []
  else if n = 1 then [a]
  else (List.range n).map fun i : ℕ => a + (b - a) * (i : α) / ((n - 1 : ℕ) : α)

/-- numpy elementwise product of 1-D arrays with length-1 broadcasting;
`none` on incompatible shapes. -/
def npMul (x y : List α) : Option (List α) :=
  if x.length = y.length then some (List.zipWith (· * ·) x y)
  else if x.length = 1 then some (y.map fun b => x.headD 0 * b)
  else if y.length = 1 then some (x.map fun a => a * y.headD 0)
  else none

/-- numpy elementwise sum of 1-D arrays with length-1 broadcasting. -/
def npAdd (x y : List α) : Option (List α) :=
  if x.length = y.length then some (List.zipWith (· + ·) x y)
  else if x.length = 1 then some (y.map fun b => x.headD 0 + b)
  else if y.length = 1 then some (x.map fun a => a + y.headD 0)
  else none

/-- Python `a[-n:]` for `n : ℕ` (recall `a[-0:] = a[0:] = a`). -/
def pySliceLast (l : List α) (n : ℕ) : List α :=
  if n = 0 then l else l.drop (l.length - n)

/-- Python `a[:-n]` for `n : ℕ` (recall `a[:-0] = a[:0] = []`). -/
def pySliceDropLast (l : List α) (n : ℕ) : List α :=
  if n = 0 then [] else l.take (l.length - n)

/-- One iteration of the stitching loop of `_stitch_segments`: plain
concatenation when either side is shorter than `overlap_samples`, otherwise a
linear crossfade of the tail of `combined` with the head of `seg`. -/
def stitchStep (ov : ℕ) (combined seg : List α) : Option (List α) :=
  if combined.length < ov ∨ seg.length < ov then some (combined ++ seg)
  else do
    let endPart ← npMul (pySliceLast combined ov) (linspace 1 0 ov)
    let startPart ← npMul (seg.take ov) (linspace 0 1 ov)
    let crossfade ← npAdd endPart startPart
    pure (pySliceDropLast combined ov ++ crossfade ++ seg.drop ov)

/-- `LongBGMGenerator._stitch_segments`. -/
def stitchSegments (segments : List (List α)) (overlapDuration : ℕ) : Option (List α) :=
  match segments with
  | [] => some []
  | s0 :: rest => rest.foldlM (stitchStep (overlapSamples overlapDuration)) s0

/-- `num_segments = int(np.ceil(total_duration / (segment_duration - overlap_duration)))`
of `generate_long_bgm`. -/
def numSegments (totalDuration segmentDuration overlapDuration : ℕ) : ℕ :=
  (⌈(totalDuration : ℚ) / ((segmentDuration : ℚ) - (overlapDuration : ℚ))⌉).toNat

/-- The trim step of `generate_long_bgm`: cut to `total_duration * 32000`
samples when longer, leave untouched otherwise. -/
def trimToDuration (combined : List α) (totalDuration : ℕ) : List α :=
  if totalDuration * 32000 < combined.length then combined.take (totalDuration * 32000)
  else combined

/-- Stitch-then-trim composition of `generate_long_bgm` (the per-segment
generation itself is the external model collaborator). -/
def assembleLongBGM (segments : List (List α)) (totalDuration overlapDuration : ℕ) :
    Option (List α) :=
  (stitchSegments segments overlapDuration).map fun c => trimToDuration c totalDuration

/-! ## General list helpers -/

theorem foldl_append_map {σ β : Type} (g : σ → List β) :
    ∀ (l : List σ) (init : List β),
      l.foldl (fun acc x => acc ++ g x) init = init ++ (l.map g).flatten
  | [], init => by simp
  | x :: t, init => by
      simp [List.foldl_cons, foldl_append_map g t (init ++ g x), List.append_assoc]

theorem foldl_append_single {σ β : Type} (g : σ → β) :
    ∀ (l : List σ) (init : List β),
      l.foldl (fun acc x => acc ++ [g x]) init = init ++ l.map g
  | [], init => by simp
  | x :: t, init => by
      simp [List.foldl_cons, foldl_append_single g t (init ++ [g x]), List.append_assoc]

/-! ## Claim C5: `generate_sine_wave` -/

theorem numSineSamples_of_nonpos {d : ℚ} (hd : d ≤ 0) : numSineSamples d = 0 := by
  have hx : (44100 : ℚ) * d ≤ 0 := by nlinarith
  unfold numSineSamples pyTrunc
  rcases lt_or_eq_of_le hx with h | h
  · rw [if_pos h]
    exact Int.toNat_of_nonpos (Int.ceil_le.mpr (by exact_mod_cast hx))
  · rw [h, if_neg (lt_irrefl 0)]
    simp

theorem generateSineWave_as_map (frequency : ℝ) (duration : ℚ) (amplitude : ℝ) :
    generateSineWave frequency duration amplitude
      = (List.range (numSineSamples duration)).map
          (fun i : ℕ => amplitude * Real.sin (2 * Real.pi * frequency * ((i : ℝ) / 44100))) := by
  unfold generateSineWave
  rw [foldl_append_single, List.nil_append]

/-- Claim C5, corrected. `generate_sine_wave` never fails: for
`duration ≤ 0` it returns the empty sample list (the loop body runs zero
times), and each generated sample `i` equals
`amplitude * sin(2π·frequency·i / 44100)` (`sample_rate` is the fixed 44100
and is never non-positive). -/
theorem generateSineWave_spec (frequency : ℝ) (duration : ℚ) (amplitude : ℝ) :
    (duration ≤ 0 → generateSineWave frequency duration amplitude = []) ∧
    ∀ i, i < (generateSineWave frequency duration amplitude).length →
      (generateSineWave frequency duration amplitude).getD i 0 =
        amplitude * Real.sin (2 * Real.pi * frequency * (i : ℝ) / 44100) := by
  constructor
  · intro hd
    rw [generateSineWave_as_map, numSineSamples_of_nonpos hd]
    rfl
  · intro i hi
    rw [generateSineWave_as_map] at hi ⊢
    rw [List.getD_eq_getElem _ _ hi]
    rw [List.length_map, List.length_range] at hi
    simp only [List.getElem_map, List.getElem_range]
    rw [mul_div_assoc]

/-- Claim C5 counterexample: with `duration = -1` (a non-positive duration)
`generate_sine_wave` does not fail as the spec states; it returns normally,
with the empty buffer as value. -/
theorem generateSineWave_neg_duration_no_failure :
    generateSineWave 440 (-1) (3 / 10) = [] := by
  rw [generateSineWave_as_map, numSineSamples_of_nonpos (by norm_num)]
  rfl

/-- Witness for `generateSineWave_spec` at `duration = 0`. -/
theorem generateSineWave_spec_witness :
    generateSineWave 440 0 (3 / 10) = [] :=
  (generateSineWave_spec 440 0 (3 / 10)).1 le_rfl

/-! ## Claim C8: the PCM16 conversion of `samples_to_wav` -/

theorem stereoPCM_eq_flatten {α : Type} [LinearOrderedField α] [FloorRing α]
    (samples : List α) :
    stereoPCM samples = (samples.map fun s => [pcm16 s, pcm16 s]).flatten := by
  unfold stereoPCM
  rw [foldl_append_map, List.nil_append]

/-- Claim C8, corrected. Each sample is converted with `int(sample * 32767)`
— truncation toward zero (floor for non-negative values, ceiling for negative
ones), not rounding to nearest — clamped to `[-32768, 32767]`, and written
twice (left and right channel) into the stereo frame stream. -/
theorem stereoPCM_spec {α : Type} [LinearOrderedField α] [FloorRing α] (samples : List α) :
    stereoPCM samples = (samples.map fun s => [pcm16 s, pcm16 s]).flatten ∧
    (∀ s : α, -32768 ≤ pcm16 s ∧ pcm16 s ≤ 32767) ∧
    (∀ s : α, 0 ≤ s → pcm16 s = max (-32768) (min 32767 ⌊s * 32767⌋)) ∧
    (∀ s : α, s < 0 → pcm16 s = max (-32768) (min 32767 ⌈s * 32767⌉)) := by
  refine ⟨stereoPCM_eq_flatten samples, ?_, ?_, ?_⟩
  · intro s
    exact ⟨le_max_left _ _, max_le (by norm_num) (min_le_left _ _)⟩
  · intro s hs
    have : ¬ s * 32767 < 0 := not_lt.mpr (by positivity)
    simp [pcm16, pyTrunc, this]
  · intro s hs
    have : s * 32767 < 0 := mul_neg_of_neg_of_pos hs (by norm_num)
    simp [pcm16, pyTrunc, this]

/-- Claim C8 counterexample: at `sample = 1/2` the code produces
`int(16383.5) = 16383`, not `round(16383.5) = 16384` as the claim states. -/
theorem pcm16_truncates_not_rounds :
    pcm16 ((1 : ℚ) / 2) ≠ max (-32768) (min 32767 (round ((1 / 2 : ℚ) * 32767))) := by
  norm_num [pcm16, pyTrunc, round_eq]

/-- Witness for `stereoPCM_spec` at the sample list `[1/2]`. -/
theorem stereoPCM_spec_witness :
    pcm16 ((1 : ℚ) / 2) = max (-32768) (min 32767 ⌊(1 / 2 : ℚ) * 32767⌋) :=
  (stereoPCM_spec (α := ℚ) [1 / 2]).2.2.1 (1 / 2) (le_of_lt one_half_pos)

/-! ## Claim C9: segment count and final trim of `generate_long_bgm` -/

theorem numSegments_eq_nat_ceil (t s o : ℕ) (ho : o < s) :
    numSegments t s o = (t + (s - o) - 1) / (s - o) := by
  obtain ⟨e, he⟩ : ∃ e, s - o = e := ⟨_, rfl⟩
  have he0 : 0 < e := by omega
  have hcast : ((s : ℚ) - (o : ℚ)) = (e : ℚ) := by
    rw [← he, Nat.cast_sub ho.le]
  rw [numSegments, hcast, he]
  obtain ⟨q, hq⟩ : ∃ q, (t + e - 1) / e = q := ⟨_, rfl⟩
  rw [hq]
  have hdm := Nat.div_add_mod (t + e - 1) e
  rw [hq] at hdm
  have hmlt : (t + e - 1) % e < e := Nat.mod_lt _ he0
  have hub : t ≤ e * q := by omega
  have hlb : e * q ≤ t + e - 1 := by omega
  have hepos : (0 : ℚ) < (e : ℚ) := by exact_mod_cast he0
  have hceil : ⌈(t : ℚ) / (e : ℚ)⌉ = (q : ℤ) := by
    rw [Int.ceil_eq_iff]
    constructor
    · rw [lt_div_iff₀ hepos]
      have h1 : ((e * q : ℕ) : ℚ) ≤ ((t + e - 1 : ℕ) : ℚ) := by exact_mod_cast hlb
      have h2 : ((t + e - 1 : ℕ) : ℚ) = (t : ℚ) + (e : ℚ) - 1 := by
        rw [Nat.cast_sub (show 1 ≤ t + e by omega)]
        push_cast
        ring
      rw [h2] at h1
      push_cast at h1
      have h1' : (q : ℚ) * (e : ℚ) ≤ (t : ℚ) + (e : ℚ) - 1 := by
        rw [mul_comm]
        exact h1
      push_cast
      rw [sub_mul, one_mul]
      linarith
    · rw [div_le_iff₀ hepos]
      have h1 : ((t : ℕ) : ℚ) ≤ ((e * q : ℕ) : ℚ) := by exact_mod_cast hub
      push_cast at h1
      push_cast
      linarith [mul_comm (e : ℚ) (q : ℚ)]
  rw [hceil, Int.toNat_natCast]

/-- Claim C9. `segment_count = ceil(total / (segment - overlap))` — equal to
the natural-number ceiling `(total + step − 1) / step` whenever
`overlap < segment`, and 3 for the 65s/30s/5s example; after stitching, the
combined buffer is cut to `total_duration * 32000` samples exactly when
longer, and returned unchanged (never padded) when not. -/
theorem segmentCount_and_trim_spec {α : Type} [LinearOrderedField α]
    (segments : List (List α)) (totalDuration overlapDuration : ℕ) (c : List α)
    (hs : stitchSegments segments overlapDuration = some c) :
    (∀ t s o : ℕ, o < s → numSegments t s o = (t + (s - o) - 1) / (s - o)) ∧
    numSegments 65 30 5 = 3 ∧
    assembleLongBGM segments totalDuration overlapDuration
      = some (trimToDuration c totalDuration) ∧
    (trimToDuration c totalDuration).length = min c.length (totalDuration * 32000) ∧
    (c.length ≤ totalDuration * 32000 → trimToDuration c totalDuration = c) := by
  refine ⟨numSegments_eq_nat_ceil, ?_, ?_, ?_, ?_⟩
  · rw [numSegments_eq_nat_ceil 65 30 5 (by norm_num)]
  · simp [assembleLongBGM, hs]
  · unfold trimToDuration
    by_cases h : totalDuration * 32000 < c.length
    · rw [if_pos h, List.length_take]
      omega
    · rw [if_neg h]
      omega
  · intro h
    unfold trimToDuration
    rw [if_neg (by omega)]

/-- Witness for `segmentCount_and_trim_spec` on the single segment `[1, 2]`. -/
theorem segmentCount_and_trim_spec_witness :
    numSegments 65 30 5 = 3 ∧
    assembleLongBGM (α := ℚ) [[1, 2]] 1 5 = some (trimToDuration [1, 2] 1) :=
  ⟨(segmentCount_and_trim_spec (α := ℚ) [[1, 2]] 1 5 [1, 2] rfl).2.1,
   (segmentCount_and_trim_spec (α := ℚ) [[1, 2]] 1 5 [1, 2] rfl).2.2.1⟩

/-! ## Claim C10: `_stitch_segments` length behaviour -/

theorem linspace_length (a b : α) (n : ℕ) : (linspace a b n).length = n := by
  by_cases h0 : n = 0
  · simp [linspace, h0]
  · by_cases h1 : n = 1
    · simp [linspace, h0, h1]
    · simp [linspace, h0, h1]

theorem stitchStep_concat (ov : ℕ) (combined seg : List α)
    (h : combined.length < ov ∨ seg.length < ov) :
    stitchStep ov combined seg = some (combined ++ seg) := by
  unfold stitchStep
  rw [if_pos h]

theorem stitchStep_crossfade_length {ov : ℕ} (hov : 1 ≤ ov)
    {combined seg : List α} (hc : ov ≤ combined.length) (hs : ov ≤ seg.length) :
    ∃ r, stitchStep ov combined seg = some r ∧
      r.length + ov = combined.length + seg.length := by
  have hend : (pySliceLast combined ov).length = ov := by
    unfold pySliceLast
    rw [if_neg (by omega), List.length_drop]
    omega
  have hstart : (seg.take ov).length = ov := by
    rw [List.length_take]
    omega
  have e1 : npMul (pySliceLast combined ov) (linspace (1 : α) 0 ov)
      = some (List.zipWith (· * ·) (pySliceLast combined ov) (linspace 1 0 ov)) := by
    unfold npMul
    rw [if_pos (hend.trans (linspace_length 1 0 ov).symm)]
  have e2 : npMul (seg.take ov) (linspace (0 : α) 1 ov)
      = some (List.zipWith (· * ·) (seg.take ov) (linspace 0 1 ov)) := by
    unfold npMul
    rw [if_pos (hstart.trans (linspace_length 0 1 ov).symm)]
  have e3 : npAdd (List.zipWith (· * ·) (pySliceLast combined ov) (linspace (1 : α) 0 ov))
      (List.zipWith (· * ·) (seg.take ov) (linspace (0 : α) 1 ov))
      = some (List.zipWith (· + ·)
          (List.zipWith (· * ·) (pySliceLast combined ov) (linspace 1 0 ov))
          (List.zipWith (· * ·) (seg.take ov) (linspace 0 1 ov))) := by
    unfold npAdd
    rw [if_pos (by simp [List.length_zipWith, hend, hstart, linspace_length])]
  refine ⟨pySliceDropLast combined ov ++ List.zipWith (· + ·)
      (List.zipWith (· * ·) (pySliceLast combined ov) (linspace 1 0 ov))
      (List.zipWith (· * ·) (seg.take ov) (linspace 0 1 ov)) ++ seg.drop ov, ?_, ?_⟩
  · unfold stitchStep
    rw [if_neg (by omega)]
    simp only [e1, e2, e3, Option.bind_eq_bind, Option.some_bind]
    rfl
  · have hdrop : (pySliceDropLast combined ov).length = combined.length - ov := by
      unfold pySliceDropLast
      rw [if_neg (by omega), List.length_take]
      omega
    simp only [List.length_append, List.length_zipWith, hend, hstart,
      linspace_length, List.length_drop, hdrop, min_self]
    omega

theorem stitch_foldlM_length {ov : ℕ} (hov : 1 ≤ ov) :
    ∀ (rest : List (List α)) (combined : List α), ov ≤ combined.length →
      (∀ s ∈ rest, ov ≤ s.length) →
      ∃ r, List.foldlM (stitchStep ov) combined rest = some r ∧
        r.length + rest.length * ov = combined.length + (rest.map List.length).sum := by
  intro rest
  induction rest with
  | nil =>
      intro combined hc _
      exact ⟨combined, rfl, by simp⟩
  | cons seg rest ih =>
      intro combined hc hr
      obtain ⟨r1, h1, hlen1⟩ :=
        stitchStep_crossfade_length hov hc (hr seg (by simp))
      have hs1 : ov ≤ seg.length := hr seg (by simp)
      have hr1 : ov ≤ r1.length := by omega
      obtain ⟨r, h2, hlen2⟩ := ih r1 hr1 (fun s hs => hr s (by simp [hs]))
      refine ⟨r, ?_, ?_⟩
      · rw [List.foldlM_cons, h1]
        simpa using h2
      · simp only [List.length_cons, List.map_cons, List.sum_cons, Nat.succ_mul]
        have hx := hlen2
        generalize rest.length * ov = X at hx ⊢
        omega

/-- Claim C10, corrected. For a non-empty segment list in which every segment
is at least `overlap_samples` long **and `overlap_samples ≥ 1`**, stitching
returns a buffer of length `Σ lengths − (n−1)·overlap_samples`, and a
junction whose accumulated buffer or incoming segment is shorter than
`overlap_samples` degenerates to plain concatenation. (With
`overlap_samples = 0` the Python slice `combined[:-0]` is empty and the
formula fails, see the counterexample.) -/
theorem stitchSegments_length_spec (segments : List (List α)) (overlapDuration : ℕ)
    (hov : 0 < overlapDuration) (hne : segments ≠ [])
    (hmin : ∀ s ∈ segments, overlapSamples overlapDuration ≤ s.length) :
    ((stitchSegments segments overlapDuration).map List.length
      = some ((segments.map List.length).sum
          - (segments.length - 1) * overlapSamples overlapDuration)) ∧
    ∀ combined seg : List α,
      combined.length < overlapSamples overlapDuration ∨
        seg.length < overlapSamples overlapDuration →
      stitchStep (overlapSamples overlapDuration) combined seg
        = some (combined ++ seg) := by
  refine ⟨?_, fun combined seg h => stitchStep_concat _ combined seg h⟩
  have hov1 : 1 ≤ overlapSamples overlapDuration := by
    unfold overlapSamples
    have := Nat.le_mul_of_pos_left 32000 hov
    omega
  match segments, hne with
  | s0 :: rest, _ =>
    obtain ⟨r, hr, hlen⟩ :=
      stitch_foldlM_length hov1 rest s0 (hmin s0 (by simp))
        (fun s hs => hmin s (by simp [hs]))
    rw [show stitchSegments (s0 :: rest) overlapDuration
        = List.foldlM (stitchStep (overlapSamples overlapDuration)) s0 rest from rfl, hr]
    simp only [Option.map_some', List.map_cons, List.sum_cons, List.length_cons,
      Nat.succ_sub_one]
    congr 1
    obtain ⟨X, hX⟩ : ∃ X, rest.length * overlapSamples overlapDuration = X := ⟨_, rfl⟩
    rw [hX] at hlen ⊢
    omega

/-- Claim C10 counterexample: with `overlap_duration = 0` and segments
`[[1], [2]]` (each trivially at least `overlap_samples = 0` long), Python's
`combined[:-0] == []` quirk makes `_stitch_segments` return `[2]` of length
1, not the claimed `1 + 1 − (2−1)·0 = 2`. -/
theorem stitchSegments_zero_overlap_counterexample :
    stitchSegments (α := ℚ) [[1], [2]] 0 = some [2] ∧
    (stitchSegments (α := ℚ) [[1], [2]] 0).map List.length
      ≠ some ((([[1], [2]] : List (List ℚ)).map List.length).sum
          - (([[1], [2]] : List (List ℚ)).length - 1) * overlapSamples 0) := by
  have h : stitchSegments (α := ℚ) [[1], [2]] 0 = some [2] := by
    simp [stitchSegments, stitchStep, overlapSamples, npMul, npAdd,
      pySliceLast, pySliceDropLast, linspace, List.foldlM]
  refine ⟨h, ?_⟩
  rw [h]
  simp [overlapSamples]

/-- Witness for `stitchSegments_length_spec`: two segments of exactly
`overlap_samples = 32000` samples each. -/
theorem stitchSegments_length_spec_witness :
    (stitchSegments (α := ℚ) [List.replicate 32000 0, List.replicate 32000 0] 1).map
        List.length
      = some ((([List.replicate 32000 (0 : ℚ), List.replicate 32000 0]).map List.length).sum
          - (([List.replicate 32000 (0 : ℚ), List.replicate 32000 0]).length - 1)
              * overlapSamples 1) :=
  (stitchSegments_length_spec [List.replicate 32000 0, List.replicate 32000 0] 1
    Nat.one_pos (List.cons_ne_nil _ _)
    (by
      intro s hs
      rcases List.mem_cons.mp hs with h | hs2
      · subst h
        rw [List.length_replicate]
        exact le_of_eq (Nat.one_mul 32000)
      · rcases List.mem_cons.mp hs2 with h | h3
        · subst h
          rw [List.length_replicate]
          exact le_of_eq (Nat.one_mul 32000)
        · exact absurd h3 (List.not_mem_nil s))).1

/-! ## Claim C6: `apply_fade` -/

theorem scaleAt_length (c : α) : ∀ (l : List α) (i : ℕ), (scaleAt l i c).length = l.length
  | [], _ => rfl
  | _ :: _, 0 => rfl
  | x :: t, n + 1 => by simp [scaleAt, scaleAt_length c t n]

theorem scaleAt_getD (c d : α) : ∀ (l : List α) (i j : ℕ),
    (scaleAt l i c).getD j d
      = if i = j ∧ j < l.length then l.getD j d * c else l.getD j d
  | [], i, j => by simp [scaleAt]
  | x :: t, 0, 0 => by simp [scaleAt]
  | x :: t, 0, j + 1 => by simp [scaleAt]
  | x :: t, i + 1, 0 => by simp [scaleAt]
  | x :: t, i + 1, j + 1 => by
      simp only [scaleAt, List.getD_cons_succ, List.length_cons, scaleAt_getD c d t i j]
      by_cases hij : i = j
      · subst hij
        by_cases hj : i < t.length
        · rw [if_pos ⟨rfl, hj⟩, if_pos ⟨rfl, by omega⟩]
        · rw [if_neg (by omega), if_neg (by omega)]
      · rw [if_neg (by omega), if_neg (by omega)]

theorem foldl_scaleAt_length (f : ℕ → α) :
    ∀ (idxs : List ℕ) (l : List α),
      (idxs.foldl (fun r i => scaleAt r i (f i)) l).length = l.length
  | [], _ => rfl
  | i :: t, l => by
      simp only [List.foldl_cons]
      rw [foldl_scaleAt_length f t, scaleAt_length]

theorem foldl_scaleAt_range_getD (f : ℕ → α) (d : α) :
    ∀ (n : ℕ) (l : List α) (j : ℕ), j < l.length →
      ((List.range n).foldl (fun r i => scaleAt r i (f i)) l).getD j d
        = if j < n then l.getD j d * f j else l.getD j d := by
  intro n
  induction n with
  | zero => intro l j hj; simp
  | succ n ih =>
      intro l j hj
      rw [List.range_succ, List.foldl_append, List.foldl_cons, List.foldl_nil,
        scaleAt_getD, foldl_scaleAt_length]
      by_cases hjn : j < n
      · rw [if_neg (by omega), ih l j hj, if_pos hjn, if_pos (by omega)]
      · by_cases hje : n = j
        · subst hje
          rw [if_pos ⟨rfl, hj⟩, ih l n hj, if_neg (by omega), if_pos (by omega)]
        · rw [if_neg (by omega), ih l j hj, if_neg (by omega), if_neg (by omega)]

theorem foldl_scaleAt_range'_getD (f : ℕ → α) (d : α) (s : ℕ) :
    ∀ (k : ℕ) (l : List α) (j : ℕ), j < l.length →
      ((List.range' s k).foldl (fun r i => scaleAt r i (f i)) l).getD j d
        = if s ≤ j ∧ j < s + k then l.getD j d * f j else l.getD j d := by
  intro k
  induction k with
  | zero =>
      intro l j hj
      rw [show List.range' s 0 = [] from rfl, List.foldl_nil, if_neg (by omega)]
  | succ k ih =>
      intro l j hj
      rw [List.range'_concat, List.foldl_append, List.foldl_cons, List.foldl_nil,
        scaleAt_getD, foldl_scaleAt_length]
      simp only [one_mul]
      by_cases hjk : s ≤ j ∧ j < s + k
      · rw [if_neg (by omega), ih l j hj, if_pos hjk, if_pos (by omega)]
      · by_cases hje : s + k = j
        · rw [if_pos ⟨hje, hj⟩, ih l j hj, if_neg (by omega), if_pos (by omega), hje]
        · rw [if_neg (by omega), ih l j hj, if_neg (by omega), if_neg (by omega)]

theorem applyFade_length (samples : List α) (fd : ℚ) :
    (applyFade samples fd).length = samples.length := by
  unfold applyFade fadeOutLoop fadeInLoop
  rw [foldl_scaleAt_length, foldl_scaleAt_length]

theorem applyFade_getD (samples : List α) (fd : ℚ) (j : ℕ) (hj : j < samples.length) :
    (applyFade samples fd).getD j 0
      = samples.getD j 0
        * (if j < min (fadeSamplesOf fd) samples.length
            then (j : α) / ((fadeSamplesOf fd : ℕ) : α) else 1)
        * (if samples.length - fadeSamplesOf fd ≤ j
            then ((samples.length - j : ℕ) : α) / ((fadeSamplesOf fd : ℕ) : α) else 1) := by
  unfold applyFade fadeOutLoop fadeInLoop
  have hlen : ((List.range (min (fadeSamplesOf fd) samples.length)).foldl
      (fun r i => scaleAt r i ((i : α) / ((fadeSamplesOf fd : ℕ) : α))) samples).length
      = samples.length := foldl_scaleAt_length _ _ _
  rw [hlen, foldl_scaleAt_range'_getD _ _ _ _ _ j (by rw [hlen]; exact hj),
    foldl_scaleAt_range_getD _ _ _ _ j hj]
  have hcover : samples.length - fadeSamplesOf fd
      + (samples.length - (samples.length - fadeSamplesOf fd)) = samples.length := by
    omega
  by_cases h2 : samples.length - fadeSamplesOf fd ≤ j
  · rw [if_pos ⟨h2, by omega⟩, if_pos h2]
    by_cases h1 : j < min (fadeSamplesOf fd) samples.length
    · rw [if_pos h1, if_pos h1]
    · rw [if_neg h1, if_neg h1, mul_one]
  · rw [if_neg (by omega), if_neg h2, mul_one]
    by_cases h1 : j < min (fadeSamplesOf fd) samples.length
    · rw [if_pos h1, if_pos h1]
    · rw [if_neg h1, if_neg h1, mul_one]

/-- Claim C6, corrected. `apply_fade` keeps the buffer length; the first
sample becomes exactly 0 when the buffer and the fade are non-empty; samples
strictly between the fade regions are unchanged; but when the fade regions
overlap (fade longer than half the buffer) a sample inside both regions is
scaled by **both** envelope factors — `s·(i/fs)·((n−i)/fs)` — not by a single
factor as claimed. -/
theorem applyFade_spec (samples : List α) (fd : ℚ) :
    (applyFade samples fd).length = samples.length ∧
    (0 < samples.length → 0 < fadeSamplesOf fd → (applyFade samples fd).getD 0 0 = 0) ∧
    (∀ j, fadeSamplesOf fd ≤ j → j < samples.length - fadeSamplesOf fd →
      (applyFade samples fd).getD j 0 = samples.getD j 0) ∧
    (∀ j, j < samples.length → samples.length - fadeSamplesOf fd ≤ j →
      j < min (fadeSamplesOf fd) samples.length →
      (applyFade samples fd).getD j 0
        = samples.getD j 0 * ((j : α) / ((fadeSamplesOf fd : ℕ) : α))
            * (((samples.length - j : ℕ) : α) / ((fadeSamplesOf fd : ℕ) : α))) := by
  refine ⟨applyFade_length samples fd, ?_, ?_, ?_⟩
  · intro hn hf
    rw [applyFade_getD samples fd 0 hn, if_pos (by omega)]
    norm_num
  · intro j h1 h2
    rw [applyFade_getD samples fd j (by omega), if_neg (by omega), if_neg (by omega),
      mul_one, mul_one]
  · intro j hj h1 h2
    rw [applyFade_getD samples fd j hj, if_pos h2, if_pos h1]

theorem fadeSamplesOf_five : fadeSamplesOf 5 = 220500 := by
  have h : ((44100 : ℚ) * 5) = 220500 := by norm_num
  have hneg : ¬ ((44100 : ℚ) * 5 < 0) := by norm_num
  rw [fadeSamplesOf, pyTrunc, if_neg hneg, h,
    show ⌊(220500 : ℚ)⌋ = (220500 : ℤ) by norm_num]
  rfl

/-- Claim C6 counterexample: on the 3-sample buffer `[1, 1, 1]` with the
default 5-second fade (`fade_samples = 220500 > len/2`), the middle sample is
multiplied by both envelope factors, `(1/220500)·(2/220500)`, which equals
none of the single-factor values the claim allows (fade-in `1/220500`,
fade-out `2/220500`, or unchanged `1`). -/
theorem applyFade_double_scaling_counterexample :
    (applyFade (α := ℚ) [1, 1, 1] 5).getD 1 0 = (1 / 220500) * (2 / 220500) ∧
    (1 / 220500 : ℚ) * (2 / 220500) ≠ 1 * (1 / 220500) ∧
    (1 / 220500 : ℚ) * (2 / 220500) ≠ 1 * (2 / 220500) ∧
    (1 / 220500 : ℚ) * (2 / 220500) ≠ 1 := by
  refine ⟨?_, by norm_num, by norm_num, by norm_num⟩
  have h3 : ([1, 1, 1] : List ℚ).length = 3 := rfl
  rw [applyFade_getD [1, 1, 1] 5 1 (by rw [h3]; omega)]
  rw [fadeSamplesOf_five, h3]
  norm_num

theorem fadeSamplesOf_five_pos : 0 < fadeSamplesOf 5 := by
  rw [fadeSamplesOf_five]
  norm_num

/-- Witness for `applyFade_spec`: the first output sample on `[1, 1, 1]`
with the default 5-second fade is 0. -/
theorem applyFade_spec_witness :
    (applyFade (α := ℚ) [1, 1, 1] 5).getD 0 0 = 0 :=
  (applyFade_spec [1, 1, 1] 5).2.1 (Nat.succ_pos 2) fadeSamplesOf_five_pos

/-! ## Claim C7: `mix_tracks` -/

theorem addAt_length (v : α) : ∀ (l : List α) (i : ℕ), (addAt l i v).length = l.length
  | [], _ => rfl
  | _ :: _, 0 => rfl
  | x :: t, n + 1 => by simp [addAt, addAt_length v t n]

theorem addAt_getD (v d : α) : ∀ (l : List α) (i j : ℕ),
    (addAt l i v).getD j d
      = if i = j ∧ j < l.length then l.getD j d + v else l.getD j d
  | [], i, j => by simp [addAt]
  | x :: t, 0, 0 => by simp [addAt]
  | x :: t, 0, j + 1 => by simp [addAt]
  | x :: t, i + 1, 0 => by simp [addAt]
  | x :: t, i + 1, j + 1 => by
      simp only [addAt, List.getD_cons_succ, List.length_cons, addAt_getD v d t i j]
      by_cases hij : i = j
      · subst hij
        by_cases hj : i < t.length
        · rw [if_pos ⟨rfl, hj⟩, if_pos ⟨rfl, by omega⟩]
        · rw [if_neg (by omega), if_neg (by omega)]
      · rw [if_neg (by omega), if_neg (by omega)]

theorem addTrack_length (v : α) : ∀ (track : List α) (j0 : ℕ) (mixed : List α),
    (addTrack v track j0 mixed).length = mixed.length
  | [], _, _ => rfl
  | x :: t, j0, mixed => by
      rw [addTrack, addTrack_length v t (j0 + 1), addAt_length]

theorem addTrack_getD (v : α) : ∀ (track : List α) (j0 : ℕ) (mixed : List α) (j : ℕ),
    j < mixed.length →
    (addTrack v track j0 mixed).getD j 0
      = mixed.getD j 0
        + (if j0 ≤ j ∧ j - j0 < track.length then track.getD (j - j0) 0 * v else 0)
  | [], j0, mixed, j, hj => by
      rw [addTrack, if_neg (by simp), add_zero]
  | x :: t, j0, mixed, j, hj => by
      rw [addTrack, addTrack_getD v t (j0 + 1) _ j (by rw [addAt_length]; exact hj),
        addAt_getD]
      by_cases h0 : j0 = j
      · subst h0
        rw [if_pos ⟨rfl, hj⟩, if_neg (by omega), add_zero,
          if_pos ⟨le_refl j0, by simp⟩]
        simp
      · rw [if_neg (by omega)]
        by_cases h1 : j0 + 1 ≤ j
        · have hsub : j - j0 = (j - (j0 + 1)) + 1 := by omega
          rw [hsub, List.getD_cons_succ]
          by_cases h2 : j - (j0 + 1) < t.length
          · rw [if_pos ⟨h1, h2⟩, if_pos ⟨by omega, by simp; omega⟩]
          · rw [if_neg (by omega), if_neg (by simp; omega)]
        · rw [if_neg (by omega), if_neg (by omega)]

theorem mixLoop_length (volumes : List α) : ∀ (tracks : List (List α)) (i0 : ℕ)
    (mixed : List α), (mixLoop volumes tracks i0 mixed).length = mixed.length
  | [], _, _ => rfl
  | tr :: rest, i0, mixed => by
      rw [mixLoop, mixLoop_length volumes rest (i0 + 1), addTrack_length]

theorem mixLoop_getD (volumes : List α) : ∀ (tracks : List (List α)) (i0 : ℕ)
    (mixed : List α) (j : ℕ), j < mixed.length →
    (mixLoop volumes tracks i0 mixed).getD j 0
      = mixed.getD j 0
        + ((List.range tracks.length).map fun k =>
            (tracks.getD k []).getD j 0 * volAt volumes (i0 + k)).sum
  | [], i0, mixed, j, hj => by
      simp [mixLoop]
  | tr :: rest, i0, mixed, j, hj => by
      rw [mixLoop, mixLoop_getD volumes rest (i0 + 1) _ j
          (by rw [addTrack_length]; exact hj),
        addTrack_getD (volAt volumes i0) tr 0 mixed j hj]
      have hhead : (if 0 ≤ j ∧ j - 0 < tr.length
            then tr.getD (j - 0) 0 * volAt volumes i0 else 0)
          = tr.getD j 0 * volAt volumes i0 := by
        by_cases h : j < tr.length
        · rw [if_pos ⟨Nat.zero_le j, by omega⟩, Nat.sub_zero]
        · rw [if_neg (by omega), List.getD_eq_default _ _ (by omega), zero_mul]
      have htail : ∀ k : ℕ,
          ((tr :: rest).getD (k + 1) []).getD j 0 * volAt volumes (i0 + (k + 1))
            = (rest.getD k []).getD j 0 * volAt volumes (i0 + 1 + k) := by
        intro k
        rw [List.getD_cons_succ, show i0 + (k + 1) = i0 + 1 + k from by omega]
      rw [hhead, List.length_cons, List.range_succ_eq_map]
      simp only [List.map_cons, List.sum_cons, List.map_map, Function.comp_def,
        List.getD_cons_zero, Nat.add_zero, htail]
      rw [add_assoc]

theorem rawMix_length (trackList : List (List α)) (volumes : List α) :
    (rawMix trackList volumes).length = maxLenTracks trackList := by
  unfold rawMix
  rw [mixLoop_length, List.length_replicate]

theorem rawMix_getD (trackList : List (List α)) (volumes : List α) (j : ℕ)
    (hj : j < maxLenTracks trackList) :
    (rawMix trackList volumes).getD j 0
      = ((List.range trackList.length).map fun k =>
          (trackList.getD k []).getD j 0 * volAt volumes k).sum := by
  unfold rawMix
  rw [mixLoop_getD volumes trackList 0 _ j (by rw [List.length_replicate]; exact hj)]
  rw [List.getD_eq_getElem _ _ (by rw [List.length_replicate]; exact hj)]
  simp [List.getElem_replicate]

theorem le_foldl_max : ∀ (l : List α) (b : α), b ≤ l.foldl max b
  | [], b => le_refl b
  | x :: t, b => le_trans (le_max_left b x) (le_foldl_max t (max b x))

theorem mem_le_foldl_max : ∀ (l : List α) (b a : α), a ∈ l → a ≤ l.foldl max b
  | [], _, a, ha => absurd ha (List.not_mem_nil a)
  | x :: t, b, a, ha => by
      rcases List.mem_cons.mp ha with h | h
      · subst h
        exact le_trans (le_max_right b a) (le_foldl_max t (max b a))
      · exact mem_le_foldl_max t (max b x) a h

theorem mem_le_pyMaxList : ∀ (l : List α) (dflt a : α), a ∈ l → a ≤ pyMaxList l dflt
  | [], _, a, ha => absurd ha (List.not_mem_nil a)
  | x :: t, dflt, a, ha => by
      rcases List.mem_cons.mp ha with h | h
      · subst h
        exact le_foldl_max t a
      · exact mem_le_foldl_max t x a h

/-- Claim C7. `mix_tracks` accumulates the element-wise weighted sum aligned
to the longest track (missing samples of shorter tracks contribute 0); the
peak division is applied exactly when the maximum absolute summed sample
exceeds 1 and the sums are returned untouched otherwise; and no output sample
ever has absolute value above 1. -/
theorem mixTracks_spec (trackList : List (List α)) (volumesOpt : Option (List α)) :
    (∀ j, j < maxLenTracks trackList →
      (rawMix trackList (volumesOpt.getD (List.replicate trackList.length 1))).getD j 0
        = ((List.range trackList.length).map fun k =>
            (trackList.getD k []).getD j 0
              * volAt (volumesOpt.getD (List.replicate trackList.length 1)) k).sum) ∧
    (trackList ≠ [] →
      pyMaxList ((rawMix trackList
          (volumesOpt.getD (List.replicate trackList.length 1))).map fun s => |s|) 1 ≤ 1 →
      mixTracks trackList volumesOpt
        = rawMix trackList (volumesOpt.getD (List.replicate trackList.length 1))) ∧
    (trackList ≠ [] →
      1 < pyMaxList ((rawMix trackList
          (volumesOpt.getD (List.replicate trackList.length 1))).map fun s => |s|) 1 →
      mixTracks trackList volumesOpt
        = (rawMix trackList (volumesOpt.getD (List.replicate trackList.length 1))).map
            fun s => s / pyMaxList ((rawMix trackList
              (volumesOpt.getD (List.replicate trackList.length 1))).map fun s => |s|) 1) ∧
    (∀ x ∈ mixTracks trackList volumesOpt, |x| ≤ 1) := by
  refine ⟨fun j hj => rawMix_getD trackList _ j hj, ?_, ?_, ?_⟩
  · intro hne hle
    rw [mixTracks, if_neg (by simp [hne]), if_neg (not_lt.mpr hle)]
  · intro hne hlt
    rw [mixTracks, if_neg (by simp [hne]), if_pos hlt]
  · intro x hx
    by_cases hne : trackList = []
    · subst hne
      rw [mixTracks, if_pos (by simp)] at hx
      exact absurd hx (List.not_mem_nil x)
    · rw [mixTracks, if_neg (by simp [hne])] at hx
      set volumes := volumesOpt.getD (List.replicate trackList.length 1) with hvol
      set mixed := rawMix trackList volumes with hmix
      set maxVal := pyMaxList (mixed.map fun s => |s|) 1 with hmax
      by_cases hpk : 1 < maxVal
      · rw [if_pos hpk] at hx
        obtain ⟨s, hs, rfl⟩ := List.mem_map.mp hx
        have hP : (0 : α) < maxVal := lt_trans zero_lt_one hpk
        rw [abs_div, abs_of_pos hP, div_le_one hP]
        calc |s| ≤ maxVal := mem_le_pyMaxList _ 1 |s| (List.mem_map_of_mem _ hs)
          _ ≤ maxVal := le_refl _
      · rw [if_neg hpk] at hx
        calc |x| ≤ maxVal := mem_le_pyMaxList _ 1 |x| (List.mem_map_of_mem _ hx)
          _ ≤ 1 := not_lt.mp hpk

theorem mixTracks_pair_eval : mixTracks (α := ℚ) [[2], [1]] none = [1] := by
  have hraw : rawMix (α := ℚ) [[2], [1]] [1, 1] = [3] := by
    simp only [rawMix, maxLenTracks, List.map_cons, List.map_nil, List.foldl_cons,
      List.foldl_nil, List.length_cons, List.length_nil, List.length_singleton]
    norm_num [mixLoop, addTrack, addAt, volAt, List.replicate]
  rw [mixTracks]
  rw [if_neg (by simp)]
  simp only [Option.getD_none, List.length_cons, List.length_nil]
  rw [show List.replicate (0 + 1 + 1) (1 : ℚ) = [1, 1] from rfl, hraw]
  norm_num [pyMaxList]

/-- Witness for `mixTracks_spec`: the clipped mix of `[[2], [1]]`. -/
theorem mixTracks_spec_witness :
    |(mixTracks (α := ℚ) [[2], [1]] none).getD 0 0| ≤ 1 :=
  (mixTracks_spec [[2], [1]] none).2.2.2 ((mixTracks (α := ℚ) [[2], [1]] none).getD 0 0)
    (by rw [mixTracks_pair_eval]; simp)

/-! ## Association-list lemmas for the cache -/

theorem lookupA_insertA_self {β : Type} (v : β) :
    ∀ (l : List (String × β)) (k : String), lookupA (insertA l k v) k = some v
  | [], k => by simp [insertA, lookupA, List.find?]
  | p :: t, k => by
      by_cases h : p.1 = k
      · simp [insertA, h, lookupA, List.find?]
      · rw [insertA, if_neg h]
        rw [lookupA, List.find?_cons_of_neg _ (by simpa using h)]
        exact lookupA_insertA_self v t k

theorem lookupA_eq_some_of_mem {β : Type} {k : String} {e : β} :
    ∀ {l : List (String × β)}, (l.map Prod.fst).Nodup → (k, e) ∈ l →
      lookupA l k = some e
  | [], _, hmem => absurd hmem (List.not_mem_nil _)
  | p :: t, hnd, hmem => by
      rcases List.mem_cons.mp hmem with h | h
      · rw [lookupA, List.find?_cons_of_pos _ (by rw [← h]; simp)]
        rw [← h]
        rfl
      · have hp : p.1 ≠ k := by
          intro hk
          have : k ∈ t.map Prod.fst := List.mem_map.mpr ⟨(k, e), h, rfl⟩
          rw [List.map_cons, List.nodup_cons, hk] at hnd
          exact hnd.1 this
        rw [lookupA, List.find?_cons_of_neg _ (by simpa using hp)]
        exact lookupA_eq_some_of_mem (by rw [List.map_cons, List.nodup_cons] at hnd; exact hnd.2) h

theorem mem_of_lookupA_eq_some {β : Type} {l : List (String × β)} {k : String} {e : β}
    (h : lookupA l k = some e) : (k, e) ∈ l := by
  obtain ⟨p, hfind, hsnd⟩ := Option.map_eq_some'.mp h
  have hmem := List.mem_of_find?_eq_some hfind
  have hkey : p.1 = k := by simpa using List.find?_some hfind
  have : p = (k, e) := by
    cases p
    simp only [Prod.mk.injEq]
    exact ⟨hkey, hsnd⟩
  rwa [this] at hmem

theorem nodup_keys_eraseA {β : Type} {l : List (String × β)} (k : String)
    (hnd : (l.map Prod.fst).Nodup) : ((eraseA l k).map Prod.fst).Nodup :=
  hnd.sublist (List.Sublist.map Prod.fst (List.filter_sublist l))

theorem eraseA_cons_self {β : Type} {k : String} {e : β} {rest : List (String × β)}
    (hnd : (((k, e) :: rest).map Prod.fst).Nodup) : eraseA ((k, e) :: rest) k = rest := by
  rw [List.map_cons, List.nodup_cons] at hnd
  rw [eraseA, List.filter_cons, if_neg (by simp)]
  apply List.filter_eq_self.mpr
  intro p hp
  have : p.1 ≠ k := by
    intro hk
    exact hnd.1 (List.mem_map.mpr ⟨p, hp, hk⟩)
  simpa using this

theorem perm_eraseA {k : String} {e : CacheEntry} {l rest : List (String × CacheEntry)}
    (hnd : (l.map Prod.fst).Nodup) (hperm : l.Perm ((k, e) :: rest)) :
    (eraseA l k).Perm rest := by
  have hnd2 : (((k, e) :: rest).map Prod.fst).Nodup := hnd.perm (hperm.map Prod.fst)
  have := hperm.filter (fun p => decide (p.1 ≠ k))
  rw [show List.filter (fun p => decide (p.1 ≠ k)) ((k, e) :: rest)
      = eraseA ((k, e) :: rest) k from rfl, eraseA_cons_self hnd2] at this
  exact this

/-! ## Claim C2: `cache_track` then `get_cached_track` -/

/-- Claim C2. Immediately after `cache_track(track, bytes, params)`, a
`get_cached_track(params)` hits, leaves the entry with `access_count == 2`,
and the bytes readable for that key (`get_track_audio`) are exactly the bytes
that were put. -/
theorem cache_put_then_get (track : GeneratedTrack) (audio : List ℕ)
    (params : List (String × JValue)) (n1 n2 : ℕ) (s : CacheState) :
    ((getCachedTrack params n2 (cacheTrack track audio params n1 s).2).1).isSome = true ∧
    (lookupA (getCachedTrack params n2 (cacheTrack track audio params n1 s).2).2.cacheIndex
        (cacheTrack track audio params n1 s).1).map CacheEntry.access_count = some 2 ∧
    getTrackAudio (cacheTrack track audio params n1 s).1
        (getCachedTrack params n2 (cacheTrack track audio params n1 s).2).2 = some audio := by
  refine ⟨?_, ?_, ?_⟩ <;>
    simp [cacheTrack, getCachedTrack, getTrackAudio, lookupA_insertA_self]

/-! ## Claim C3: the byte-budget invariant of `cache_track` -/

theorem removeCacheEntry_maxSize (k : String) (s : CacheState) :
    ((removeCacheEntry k s).2).maxSizeBytes = s.maxSizeBytes := by
  cases hl : lookupA s.cacheIndex k <;> simp [removeCacheEntry, hl]

theorem evictLoop_maxSize (req maxB : ℕ) :
    ∀ (l : List (String × CacheEntry)) (s : CacheState) (cur : ℤ),
      (evictLoop req maxB l s cur).maxSizeBytes = s.maxSizeBytes
  | [], s, cur => rfl
  | (k, e) :: rest, s, cur => by
      rw [evictLoop]
      by_cases h : cur - e.file_size + req ≤ (maxB : ℤ)
      · rw [if_pos h, removeCacheEntry_maxSize]
      · rw [if_neg h, evictLoop_maxSize req maxB rest _ _, removeCacheEntry_maxSize]

theorem evictLoop_total (req maxB : ℕ) :
    ∀ (l : List (String × CacheEntry)) (s : CacheState) (cur : ℤ),
      s.cacheIndex.Perm l → (s.cacheIndex.map Prod.fst).Nodup →
      cur = (totalSize s : ℤ) → req ≤ maxB →
      (totalSize (evictLoop req maxB l s cur) : ℤ) + req ≤ (maxB : ℤ)
  | [], s, cur, hperm, _, _, hreq => by
      rw [evictLoop]
      have : s.cacheIndex = [] := hperm.eq_nil
      rw [totalSize, this]
      simp only [List.map_nil, List.sum_nil, Nat.cast_zero, zero_add]
      exact_mod_cast hreq
  | (k, e) :: rest, s, cur, hperm, hnd, hcur, hreq => by
      have hmem : (k, e) ∈ s.cacheIndex := hperm.mem_iff.mpr (by simp)
      have hlk : lookupA s.cacheIndex k = some e := lookupA_eq_some_of_mem hnd hmem
      have hs' : (removeCacheEntry k s).2
          = { s with files := eraseA s.files e.file_path,
                     cacheIndex := eraseA s.cacheIndex k } := by
        rw [removeCacheEntry, hlk]
      have hperm' : (eraseA s.cacheIndex k).Perm rest := perm_eraseA hnd hperm
      have hsumN : totalSize s = e.file_size + (rest.map fun p => p.2.file_size).sum := by
        rw [totalSize, (hperm.map fun p => p.2.file_size).sum_eq]
        simp
      have hsumN' : totalSize (removeCacheEntry k s).2
          = (rest.map fun p => p.2.file_size).sum := by
        rw [hs', totalSize]
        exact (hperm'.map fun p => p.2.file_size).sum_eq
      rw [evictLoop]
      by_cases h : cur - (e.file_size : ℤ) + req ≤ (maxB : ℤ)
      · rw [if_pos h]
        omega
      · rw [if_neg h]
        exact evictLoop_total req maxB rest _ _
          (by rw [hs']; exact hperm')
          (by rw [hs']; exact nodup_keys_eraseA k hnd)
          (by omega) hreq

theorem ensureCacheSpace_total (req : ℕ) (s : CacheState) (hnd : CacheWF s)
    (hreq : req ≤ s.maxSizeBytes) :
    (totalSize (ensureCacheSpace req s) : ℤ) + req ≤ (s.maxSizeBytes : ℤ) := by
  rw [ensureCacheSpace]
  by_cases h : (totalSize s : ℤ) + req ≤ (s.maxSizeBytes : ℤ)
  · rw [if_pos h]
    exact h
  · rw [if_neg h]
    exact evictLoop_total req s.maxSizeBytes (sortByLastAccessed s.cacheIndex) s _
      (List.perm_insertionSort _ _).symm hnd rfl hreq

theorem insertA_size_sum (e : CacheEntry) :
    ∀ (l : List (String × CacheEntry)) (k : String),
      ((insertA l k e).map fun p => p.2.file_size).sum
        ≤ ((l.map fun p => p.2.file_size).sum) + e.file_size
  | [], k => by simp [insertA]
  | p :: t, k => by
      by_cases h : p.1 = k
      · rw [insertA, if_pos h]
        simp only [List.map_cons, List.sum_cons]
        omega
      · rw [insertA, if_neg h]
        simp only [List.map_cons, List.sum_cons]
        have := insertA_size_sum e t k
        omega

/-- Claim C3, corrected. After a `cache_track` of `audio_bytes` **whose
length does not exceed the configured budget**, the sum of `file_size` over
the index entries is at most `max_size_bytes`. (A payload larger than the
whole budget is still written after eviction empties the cache, so the
invariant fails for it — see the counterexample.) -/
theorem cacheTrack_budget (track : GeneratedTrack) (audio : List ℕ)
    (params : List (String × JValue)) (now : ℕ) (s : CacheState)
    (hwf : CacheWF s) (hfit : audio.length ≤ s.maxSizeBytes) :
    totalSize (cacheTrack track audio params now s).2 ≤ s.maxSizeBytes := by
  have h1 := ensureCacheSpace_total audio.length s hwf hfit
  have h2 : totalSize (cacheTrack track audio params now s).2
      ≤ totalSize (ensureCacheSpace audio.length s) + audio.length := by
    simp only [cacheTrack, totalSize]
    exact insertA_size_sum _ _ _
  have h3 : totalSize (ensureCacheSpace audio.length s) + audio.length
      ≤ s.maxSizeBytes := by exact_mod_cast h1
  omega

/-- Claim C3 counterexample: with a zero-byte budget (`max_size_mb = 0`), a
one-byte payload still gets cached — eviction runs out of entries and the
write proceeds — leaving the index total at 1 > 0. -/
theorem cacheTrack_budget_counterexample :
    ¬ (totalSize (cacheTrack
        { id := "t", title := "t", genre := "sleep", duration := 1, file_url := "",
          format := "wav", bitrate := 128, file_size := 1, created_at := 0,
          generation_method := "m" }
        [0] [] 0 (initCache 0)).2 ≤ (initCache 0).maxSizeBytes) := by
  simp [cacheTrack, ensureCacheSpace, evictLoop, sortByLastAccessed, totalSize,
    initCache, insertA]

/-- Witness for `cacheTrack_budget` on an empty 1 MiB cache. -/
theorem cacheTrack_budget_witness :
    totalSize (cacheTrack
        { id := "t", title := "t", genre := "sleep", duration := 1, file_url := "",
          format := "wav", bitrate := 128, file_size := 2, created_at := 0,
          generation_method := "m" }
        [0, 0] [] 0 (initCache 1)).2 ≤ (initCache 1).maxSizeBytes :=
  cacheTrack_budget _ [0, 0] [] 0 (initCache 1) (by decide) (by decide)

/-! ## Claim C4: eviction is strict least-recently-used -/

theorem lookupA_eraseA_self {β : Type} (l : List (String × β)) (k : String) :
    lookupA (eraseA l k) k = none := by
  rw [lookupA, Option.map_eq_none']
  rw [List.find?_eq_none]
  intro p hp
  have := (List.mem_filter.mp hp).2
  simp only [ne_eq, decide_eq_true_eq] at this
  simpa using this

theorem lookupA_eraseA_ne {β : Type} {k k' : String} (hne : k ≠ k') :
    ∀ (l : List (String × β)), lookupA (eraseA l k') k = lookupA l k
  | [] => rfl
  | p :: t => by
      rw [eraseA, List.filter_cons]
      by_cases h : p.1 = k'
      · rw [if_neg (by simp [h])]
        rw [show List.filter (fun p => decide (p.1 ≠ k')) t = eraseA t k' from rfl,
          lookupA_eraseA_ne hne t]
        symm
        rw [lookupA, List.find?_cons_of_neg _ (by
          simp only [beq_iff_eq, h]
          exact fun hh => hne hh.symm)]
        rfl
      · rw [if_pos (by simp [h])]
        by_cases hk : p.1 = k
        · rw [lookupA, List.find?_cons_of_pos _ (by simp [hk]), lookupA,
            List.find?_cons_of_pos _ (by simp [hk])]
        · rw [lookupA, List.find?_cons_of_neg _ (by simp [hk]), lookupA,
            List.find?_cons_of_neg _ (by simp [hk])]
          exact lookupA_eraseA_ne hne t

theorem removeCacheEntry_lookup_none {k : String} {s : CacheState}
    (hnone : lookupA s.cacheIndex k = none) (k' : String) :
    lookupA ((removeCacheEntry k' s).2).cacheIndex k = none := by
  cases hl : lookupA s.cacheIndex k' with
  | none => rw [removeCacheEntry, hl]; exact hnone
  | some e =>
      rw [removeCacheEntry, hl]
      by_cases hk : k = k'
      · subst hk
        exact lookupA_eraseA_self s.cacheIndex k
      · rw [lookupA_eraseA_ne hk s.cacheIndex]
        exact hnone

theorem removePairs_lookup_none {k : String} :
    ∀ (ps : List (String × CacheEntry)) (s : CacheState),
      lookupA s.cacheIndex k = none →
      lookupA (removePairs ps s).cacheIndex k = none
  | [], _, hnone => hnone
  | p :: t, _, hnone =>
      removePairs_lookup_none t _ (removeCacheEntry_lookup_none hnone p.1)

theorem removePairs_lookup_none_of_mem {k : String} :
    ∀ (ps : List (String × CacheEntry)) (s : CacheState),
      k ∈ ps.map Prod.fst →
      lookupA (removePairs ps s).cacheIndex k = none
  | [], s, hmem => absurd hmem (List.not_mem_nil k)
  | p :: t, s, hmem => by
      rw [List.map_cons] at hmem
      rcases List.mem_cons.mp hmem with h | h
      · subst h
        apply removePairs_lookup_none t
        cases hl : lookupA s.cacheIndex p.1 with
        | none => simp only [removeCacheEntry, hl]
        | some e =>
            simp only [removeCacheEntry, hl]
            exact lookupA_eraseA_self s.cacheIndex p.1
      · exact removePairs_lookup_none_of_mem t _ (by simpa using h)

theorem removePairs_lookup_not_mem {k : String} :
    ∀ (ps : List (String × CacheEntry)) (s : CacheState),
      k ∉ ps.map Prod.fst →
      lookupA (removePairs ps s).cacheIndex k = lookupA s.cacheIndex k
  | [], s, _ => rfl
  | p :: t, s, hmem => by
      have hne : k ≠ p.1 := fun h => hmem (by simp [h])
      have ht : k ∉ t.map Prod.fst := fun h => hmem (by simp [h])
      rw [show removePairs (p :: t) s = removePairs t (removeCacheEntry p.1 s).2 from rfl,
        removePairs_lookup_not_mem t _ ht]
      cases hl : lookupA s.cacheIndex p.1 with
      | none => rw [removeCacheEntry, hl]
      | some e =>
          rw [removeCacheEntry, hl]
          exact lookupA_eraseA_ne hne s.cacheIndex

theorem evictLoop_eq_removePairs (req maxB : ℕ) :
    ∀ (l : List (String × CacheEntry)) (s : CacheState) (cur : ℤ),
      ∃ n, evictLoop req maxB l s cur = removePairs (l.take n) s
  | [], s, cur => ⟨0, rfl⟩
  | (k, e) :: rest, s, cur => by
      rw [evictLoop]
      by_cases h : cur - (e.file_size : ℤ) + req ≤ (maxB : ℤ)
      · exact ⟨1, by rw [if_pos h]; rfl⟩
      · obtain ⟨n, hn⟩ :=
          evictLoop_eq_removePairs req maxB rest (removeCacheEntry k s).2
            (cur - (e.file_size : ℤ))
        exact ⟨n + 1, by rw [if_neg h, hn]; rfl⟩

/-- Claim C4. Whenever a `put` triggers eviction, entries leave in ascending
`last_accessed` order: if an entry with a strictly more recent
`last_accessed` was evicted by `_ensure_cache_space`, then every entry with a
strictly older `last_accessed` was evicted too — equivalently, a recently
looked-up entry never gets evicted while an older untouched one remains. -/
theorem lru_eviction_spec (s : CacheState) (req : ℕ) (k1 k2 : String)
    (e1 e2 : CacheEntry) (hwf : CacheWF s)
    (h1 : lookupA s.cacheIndex k1 = some e1) (h2 : lookupA s.cacheIndex k2 = some e2)
    (hlt : e1.last_accessed < e2.last_accessed)
    (hev : lookupA (ensureCacheSpace req s).cacheIndex k2 = none) :
    lookupA (ensureCacheSpace req s).cacheIndex k1 = none := by
  rw [ensureCacheSpace] at hev ⊢
  by_cases hc : (totalSize s : ℤ) + req ≤ (s.maxSizeBytes : ℤ)
  · rw [if_pos hc, h2] at hev
    exact absurd hev (by simp)
  · rw [if_neg hc] at hev ⊢
    obtain ⟨n, hn⟩ := evictLoop_eq_removePairs req s.maxSizeBytes
      (sortByLastAccessed s.cacheIndex) s (totalSize s)
    rw [hn] at hev ⊢
    have hperm : (sortByLastAccessed s.cacheIndex).Perm s.cacheIndex :=
      List.perm_insertionSort _ _
    have hndl : ((sortByLastAccessed s.cacheIndex).map Prod.fst).Nodup :=
      hwf.perm (hperm.map Prod.fst).symm
    have hmem2 : (k2, e2) ∈ sortByLastAccessed s.cacheIndex :=
      hperm.mem_iff.mpr (mem_of_lookupA_eq_some h2)
    have hmem1 : (k1, e1) ∈ sortByLastAccessed s.cacheIndex :=
      hperm.mem_iff.mpr (mem_of_lookupA_eq_some h1)
    have hk2take : k2 ∈ ((sortByLastAccessed s.cacheIndex).take n).map Prod.fst := by
      by_contra hcon
      rw [removePairs_lookup_not_mem _ _ hcon, h2] at hev
      exact absurd hev (by simp)
    have hk2pair : (k2, e2) ∈ (sortByLastAccessed s.cacheIndex).take n := by
      obtain ⟨p, hp, hpk⟩ := List.mem_map.mp hk2take
      have hpl : p ∈ sortByLastAccessed s.cacheIndex := List.mem_of_mem_take hp
      have hlk2 : lookupA (sortByLastAccessed s.cacheIndex) k2 = some e2 :=
        lookupA_eq_some_of_mem hndl hmem2
      have hlkp : lookupA (sortByLastAccessed s.cacheIndex) p.1 = some p.2 :=
        lookupA_eq_some_of_mem hndl (by cases p; exact hpl)
      rw [hpk, hlk2] at hlkp
      have : p = (k2, e2) := by
        cases p
        simp only [Prod.mk.injEq]
        exact ⟨hpk, (Option.some.inj hlkp).symm⟩
      rwa [this] at hp
    have hsorted : (sortByLastAccessed s.cacheIndex).Pairwise
        (fun a b => a.2.last_accessed ≤ b.2.last_accessed) := by
      haveI : IsTotal (String × CacheEntry)
          (fun a b => a.2.last_accessed ≤ b.2.last_accessed) :=
        ⟨fun a b => Nat.le_total _ _⟩
      haveI : IsTrans (String × CacheEntry)
          (fun a b => a.2.last_accessed ≤ b.2.last_accessed) :=
        ⟨fun _ _ _ => Nat.le_trans⟩
      exact List.sorted_insertionSort _ _
    have hk1take : (k1, e1) ∈ (sortByLastAccessed s.cacheIndex).take n := by
      by_contra hcon
      have hdrop : (k1, e1) ∈ (sortByLastAccessed s.cacheIndex).drop n := by
        have hm := hmem1
        rw [← List.take_append_drop n (sortByLastAccessed s.cacheIndex)] at hm
        rcases List.mem_append.mp hm with h | h
        · exact absurd h hcon
        · exact h
      have hsplit := hsorted
      rw [← List.take_append_drop n (sortByLastAccessed s.cacheIndex)] at hsplit
      have := (List.pairwise_append.mp hsplit).2.2 (k2, e2) hk2pair (k1, e1) hdrop
      simp only at this
      omega
    exact removePairs_lookup_none_of_mem _ _
      (List.mem_map.mpr ⟨(k1, e1), hk1take, rfl⟩)

/-- Witness for `lru_eviction_spec`: a 15-byte cache holding two 10-byte
entries (`"a"` older than `"b"`), hit by a 100-byte reservation that evicts
everything — `"b"` gone implies `"a"` gone. -/
theorem lru_eviction_spec_witness :
    lookupA (ensureCacheSpace 100
      { cacheIndex :=
          [("a", { file_path := "a.wav",
                   metadata := { title := "t", genre := "g", duration := 1,
                                 format := "wav", bitrate := 128,
                                 generation_method := "m", generation_params := [] },
                   created_at := 0, last_accessed := 0, access_count := 1,
                   file_size := 10 }),
           ("b", { file_path := "b.wav",
                   metadata := { title := "t", genre := "g", duration := 1,
                                 format := "wav", bitrate := 128,
                                 generation_method := "m", generation_params := [] },
                   created_at := 0, last_accessed := 1, access_count := 1,
                   file_size := 10 })],
        files := [("a.wav", [0]), ("b.wav", [0])],
        maxSizeBytes := 15 }).cacheIndex "a" = none := by
  apply lru_eviction_spec _ 100 "a" "b"
    { file_path := "a.wav",
      metadata := { title := "t", genre := "g", duration := 1, format := "wav",
                    bitrate := 128, generation_method := "m", generation_params := [] },
      created_at := 0, last_accessed := 0, access_count := 1, file_size := 10 }
    { file_path := "b.wav",
      metadata := { title := "t", genre := "g", duration := 1, format := "wav",
                    bitrate := 128, generation_method := "m", generation_params := [] },
      created_at := 0, last_accessed := 1, access_count := 1, file_size := 10 }
    (by decide) (by decide) (by decide) (by decide) (by decide)

/-! ## Claim C1: `_generate_cache_key` is deterministic and order-independent -/

theorem sorted_nodup_keys_perm_eq :
    ∀ {l1 l2 : List (String × JValue)}, l1.Perm l2 →
      l1.Pairwise (fun a b => a.1 ≤ b.1) → l2.Pairwise (fun a b => a.1 ≤ b.1) →
      (l1.map Prod.fst).Nodup → l1 = l2
  | [], _, hperm, _, _, _ => by rw [hperm.symm.eq_nil]
  | a :: t1, l2, hperm, hs1, hs2, hnd => by
      cases l2 with
      | nil => simp at hperm
      | cons b t2 =>
          have hab : a = b := by
            have hain : a ∈ b :: t2 := hperm.mem_iff.mp (by simp)
            have hbin : b ∈ a :: t1 := hperm.mem_iff.mpr (by simp)
            rcases List.mem_cons.mp hain with h | ha2
            · exact h
            rcases List.mem_cons.mp hbin with h | hb1
            · exact h.symm
            have h1 : a.1 ≤ b.1 := (List.pairwise_cons.mp hs1).1 b hb1
            have h2 : b.1 ≤ a.1 := (List.pairwise_cons.mp hs2).1 a ha2
            have hkey : a.1 = b.1 := le_antisymm h1 h2
            rw [List.map_cons, List.nodup_cons] at hnd
            exact absurd (List.mem_map.mpr ⟨b, hb1, hkey.symm⟩) hnd.1
          subst hab
          have ht : t1 = t2 :=
            sorted_nodup_keys_perm_eq hperm.cons_inv
              (List.pairwise_cons.mp hs1).2 (List.pairwise_cons.mp hs2).2
              (by rw [List.map_cons, List.nodup_cons] at hnd; exact hnd.2)
          rw [ht]

theorem sortEntries_sorted (l : List (String × JValue)) :
    (sortEntries l).Pairwise (fun a b => a.1 ≤ b.1) := by
  haveI : IsTotal (String × JValue) (fun a b => a.1 ≤ b.1) :=
    ⟨fun a b => le_total a.1 b.1⟩
  haveI : IsTrans (String × JValue) (fun a b => a.1 ≤ b.1) :=
    ⟨fun _ _ _ h1 h2 => le_trans h1 h2⟩
  exact List.sorted_insertionSort _ _

theorem sortEntries_perm (l : List (String × JValue)) : (sortEntries l).Perm l :=
  List.perm_insertionSort _ _

theorem sortEntries_eq_of_perm {p1 p2 : List (String × JValue)}
    (hperm : p1.Perm p2) (hnd : (p1.map Prod.fst).Nodup) :
    sortEntries p1 = sortEntries p2 :=
  sorted_nodup_keys_perm_eq
    ((sortEntries_perm p1).trans (hperm.trans (sortEntries_perm p2).symm))
    (sortEntries_sorted p1) (sortEntries_sorted p2)
    (hnd.perm ((sortEntries_perm p1).map Prod.fst).symm)

theorem hexChars_flatten_length :
    ∀ (l : List ℕ), ((l.map byteHexChars).flatten).length = 2 * l.length
  | [] => rfl
  | b :: t => by
      rw [List.map_cons, List.flatten_cons, List.length_append,
        hexChars_flatten_length t]
      simp [byteHexChars]
      omega

theorem sha256Bytes_length (m : List ℕ) : (sha256Bytes m).length = 32 := by
  rw [sha256Bytes]
  simp [wordBytes]

theorem sha256HexChars_length (m : List ℕ) : (sha256HexChars m).length = 64 := by
  rw [sha256HexChars, hexChars_flatten_length, sha256Bytes_length]

theorem generateCacheKey_length (p : List (String × JValue)) :
    (generateCacheKey p).length = 16 := by
  rw [generateCacheKey]
  show ((sha256HexChars (utf8Encode (jsonDumpsSorted p))).take 16).length = 16
  rw [List.length_take, sha256HexChars_length]
  norm_num

/-- Claim C1. `_generate_cache_key` is a pure function of the parameter
dict's key-value multiset: two parameter dicts with identical field values,
built in any insertion order (modelled as a permutation of association
pairs with distinct keys), get the identical key, and the key always has the
fixed length 16. Determinism across process restarts is the statement that
the key is a mathematical function of the parameters alone. -/
theorem cacheKey_deterministic (p1 p2 : List (String × JValue)) (hperm : p1.Perm p2)
    (hnd : (p1.map Prod.fst).Nodup) :
    generateCacheKey p1 = generateCacheKey p2 ∧ (generateCacheKey p1).length = 16 := by
  refine ⟨?_, generateCacheKey_length p1⟩
  rw [generateCacheKey, generateCacheKey, jsonDumpsSorted, jsonDumpsSorted,
    sortEntries_eq_of_perm hperm hnd]

/-- Witness for `cacheKey_deterministic`: the same two-field parameter dict
built in both insertion orders. -/
theorem cacheKey_deterministic_witness :
    generateCacheKey [("genre", JValue.jstr "sleep"), ("duration", JValue.jint 300)]
      = generateCacheKey [("duration", JValue.jint 300), ("genre", JValue.jstr "sleep")] ∧
    (generateCacheKey
        [("genre", JValue.jstr "sleep"), ("duration", JValue.jint 300)]).length = 16 :=
  cacheKey_deterministic _ _ (by decide) (by decide)

end Nocturne

